import Mathlib

/-!
Verification of the lnsocket-rs core: a shallow embedding of the Commando
request/response multiplexer (`src/commando.rs`), the wire-message dispatch
(`src/ln/wire.rs`), the synchronous Commando client of `src/lnsocket.rs`, and
the error taxonomy (`src/error.rs`), together with theorems settling the
specification's claims about them.

Bytes are modelled as `Nat` (each < 256 where produced by the encoders),
64-bit counters as `Nat` reduced modulo `2 ^ 64` where the Rust `u64`
wraps, and the `HashMap` pending-request table as an association list whose
lookup returns the first matching key (a `HashMap` never holds duplicate
keys, so this is a faithful determinization).  JSON parsing
(`serde_json::from_slice`) is an external collaborator: the pump theorems are
parameterized over an arbitrary parse function `parse : List Nat → Option
Value`, `none` standing for a `serde_json::Error`.
-/

namespace Lnsocket

/-- Model of `std::io::ErrorKind` restricted to the kinds this crate produces. -/
inductive IoErrorKind where
  | brokenPipe
  | timedOut
  | other (code : Nat)
deriving DecidableEq, Repr

/-- Modelled from the spec: `DecodeError` lives in `ln/msgs.rs`, which is not
among the repository's files; §4.4 lists its causes as `ShortRead`,
`InvalidValue`, `UnknownRequiredFeature`, `Io`. -/
inductive DecodeError where
  | shortRead
  | invalidValue
  | unknownRequiredFeature
  | ioErr
deriving DecidableEq, Repr

/-- Model of `serde_json::Value` (numbers restricted to integers; no claim
depends on non-integer JSON numbers). -/
inductive Value where
  | null
  | bool (b : Bool)
  | num (n : Int)
  | str (s : String)
  | arr (xs : List Value)
  | obj (fields : List (String × Value))

/-- The error enum of `src/error.rs` (payloads of the two variants whose Rust
types live in the absent `ln/msgs.rs` are reduced to an opaque code). -/
inductive Error where
  | notConnected
  | firstMessageNotInit
  | dnsError
  | io (kind : IoErrorKind)
  | json
  | lightning (detail : Nat)
  | decode (e : DecodeError)
  | addrParse (detail : String)
  | rpc (code : Int) (message : String)
  | proxyConnection (detail : String)
deriving DecidableEq, Repr

/-- `serde_json::from_slice::<Value>(..).map_err(Error::from)`:
`From<serde_json::Error> for Error` maps every JSON error to `Error::Json`. -/
def jsonResult (parse : List Nat → Option Value) (bs : List Nat) :
    Except Error Value :=
  match parse bs with
  | some v => .ok v
  | none => .error .json

/-! ### Association-list model of `HashMap<u64, _>`

Lookup returns the first matching entry; `insertA` replaces (as
`HashMap::insert` does); `removeA` deletes; `modifyA` rewrites the value in
place (as `HashMap::get_mut` followed by a mutation does). -/

def lookupA {α : Type} : List (Nat × α) → Nat → Option α
  | [], _ => none
  | (k, v) :: m, r => if k = r then some v else lookupA m r

def removeA {α : Type} : List (Nat × α) → Nat → List (Nat × α)
  | [], _ => []
  | (k, v) :: m, r => if k = r then removeA m r else (k, v) :: removeA m r

def modifyA {α : Type} (f : α → α) : List (Nat × α) → Nat → List (Nat × α)
  | [], _ => []
  | (k, v) :: m, r =>
    if k = r then (k, f v) :: modifyA f m r else (k, v) :: modifyA f m r

def insertA {α : Type} (m : List (Nat × α)) (r : Nat) (v : α) :
    List (Nat × α) :=
  (r, v) :: removeA m r

/-! ### Wire messages (`src/ln/wire.rs`)

The payload structs live in the absent `ln/msgs.rs`; they are modelled from
the spec (§4.4, §6) as plain carriers — every claim about them concerns only
the dispatch in `wire.rs` and the pump in `commando.rs`, never the payload
decoding itself. -/

/-- Modelled from the spec: `msgs::Ping` (absent `ln/msgs.rs`); fields as used
by `commando.rs` (`ping.ponglen`) and §4.4's table. -/
structure Ping where
  ponglen : Nat
  byteslen : Nat
deriving DecidableEq, Repr

/-- Modelled from the spec: `msgs::Pong` (absent `ln/msgs.rs`); field as
constructed by `commando.rs` (`msgs::Pong { byteslen: ping.ponglen }`). -/
structure Pong where
  byteslen : Nat
deriving DecidableEq, Repr

/-- Modelled from the spec: `msgs::Init` (absent `ln/msgs.rs`); fields as
constructed in the tests of `src/lnsocket.rs` and §6. -/
structure InitMsg where
  global_features : List Nat
  features : List Nat
  networks : Option (List (List Nat))
  remote_network_address : Option Unit
deriving DecidableEq, Repr

/-- Modelled from the spec: `msgs::ErrorMessage` (absent `ln/msgs.rs`), §4.4:
a 32-byte channel id and length-prefixed bytes. -/
structure ErrorMessage where
  channel_id : List Nat
  data : List Nat
deriving DecidableEq, Repr

/-- Modelled from the spec: `msgs::WarningMessage` (absent `ln/msgs.rs`),
§4.4: a 32-byte channel id and length-prefixed bytes. -/
structure WarningMessage where
  channel_id : List Nat
  data : List Nat
deriving DecidableEq, Repr

/-- `wire::Message<T>` from `src/ln/wire.rs`. -/
inductive Message (T : Type) where
  | init (m : InitMsg)
  | error (m : ErrorMessage)
  | warning (m : WarningMessage)
  | ping (m : Ping)
  | pong (m : Pong)
  | unknown (tag : Nat)
  | custom (msg : T)

/-! ### Commando data types (`src/commando.rs`) -/

def COMMANDO_COMMAND : Nat := 0x4c4f
def COMMANDO_REPLY_CONT : Nat := 0x594b
def COMMANDO_REPLY_TERM : Nat := 0x594d

/-- `CommandoCommand`: the JSON data of a commando command packet (field order
is the Rust declaration order `id, method, params, rune`). -/
structure CommandoCommand where
  id : Nat
  method : String
  params : Value
  rune : String

structure CommandoReplyChunk where
  req_id : Nat
  chunk : List Nat

inductive IncomingCommandoMessage where
  | chunk (c : CommandoReplyChunk)
  | done (c : CommandoReplyChunk)

/-! ### The pump state machine (`src/commando.rs`, `async fn pump`)

One `tokio::select!` iteration is one `pumpStep`.  The environment-determined
inputs — which arm fires, the decrypt/read outcome, and the success of the
socket write performed while handling `Ctrl::Start` — are the `PumpEvent`.
Outputs are a list of `Effect`s (socket writes attempted and oneshot
completions sent) plus a `Bool` that is `true` when the loop `break`s. -/

/-- An entry of the pump's `pending` map: the oneshot sender (identified by an
abstract token) and the accumulated reply bytes. -/
structure InProgress where
  done_tx : Nat
  buf : List Nat

abbrev Pending : Type := List (Nat × InProgress)

inductive OutMsg where
  | cmd (c : CommandoCommand)
  | pong (p : Pong)

inductive Effect where
  | sockWrite (m : OutMsg)
  | complete (tok : Nat) (r : Except Error Value)

/-- One environment event for a `select!` iteration.  `ctrlStart` carries the
outcome of the `sock.write(&cmd)` performed in that arm (`none` = success,
`some k` = the write failed with I/O error kind `k`); `inbound` carries the
result of `sock.read_custom(..)`. -/
inductive PumpEvent where
  | ctrlStart (cmd : CommandoCommand) (done_tx : Nat) (writeErr : Option IoErrorKind)
  | inbound (res : Except Error (Message IncomingCommandoMessage))

/-- One iteration of the pump loop, translated arm by arm from
`src/commando.rs` lines 200–248. -/
def pumpStep (parse : List Nat → Option Value) (st : Pending) :
    PumpEvent → Pending × List Effect × Bool
  | .ctrlStart cmd tok werr =>
    let st1 := insertA st cmd.id ⟨tok, []⟩
    match werr with
    | none => (st1, [.sockWrite (.cmd cmd)], false)
    | some k =>
      match lookupA st1 cmd.id with
      | some p =>
        (removeA st1 cmd.id,
         [.sockWrite (.cmd cmd), .complete p.done_tx (.error (.io k))], false)
      | none => (st1, [.sockWrite (.cmd cmd)], false)
  | .inbound (.error e) =>
    ([], st.map (fun kp => .complete kp.2.done_tx (.error e)), true)
  | .inbound (.ok (.ping pg)) =>
    (st, [.sockWrite (.pong ⟨pg.ponglen⟩)], false)
  | .inbound (.ok (.custom (.chunk c))) =>
    (match lookupA st c.req_id with
     | some _ => modifyA (fun p => ⟨p.done_tx, p.buf ++ c.chunk⟩) st c.req_id
     | none => st, [], false)
  | .inbound (.ok (.custom (.done c))) =>
    (match lookupA st c.req_id with
     | some p =>
       (removeA st c.req_id,
        [.complete p.done_tx (jsonResult parse (p.buf ++ c.chunk))], false)
     | none => (st, [], false))
  | .inbound (.ok _) => (st, [], false)

/-- Run the pump over a list of events, stopping when an iteration breaks. -/
def pumpRun (parse : List Nat → Option Value) (st : Pending) :
    List PumpEvent → Pending × List Effect × Bool
  | [] => (st, [], false)
  | ev :: evs =>
    match pumpStep parse st ev with
    | (st1, effs, true) => (st1, effs, true)
    | (st1, effs, false) =>
      match pumpRun parse st1 evs with
      | (st2, effs2, brk) => (st2, effs ++ effs2, brk)

/-! ### Request-ID allocation (`CommandoClient::spawn` / `alloc_id`) -/

def U64_MOD : Nat := 2 ^ 64

/-- `CommandoClient::spawn` initializes `next_id` to `AtomicU64::new(1)`
(`src/commando.rs` line 146). -/
def NEXT_ID_INIT : Nat := 1

/-- `alloc_id`: `next_id.fetch_add(1, Ordering::Relaxed)` returns the previous
counter value; the stored counter wraps as a `u64` does. -/
def alloc_id (next_id : Nat) : Nat × Nat :=
  (next_id, (next_id + 1) % U64_MOD)

/-- The IDs produced by `k` successive `alloc_id` calls starting from counter
value `n`.  An `AtomicU64::fetch_add` linearizes concurrent calls, so any
concurrent execution allocates exactly this multiset of IDs. -/
def allocIds : Nat → Nat → List Nat
  | 0, _ => []
  | k + 1, n => (alloc_id n).1 :: allocIds k (alloc_id n).2

/-- The IDs a fresh `CommandoClient` hands out over its first `k` calls. -/
def clientAllocIds (k : Nat) : List Nat :=
  allocIds k NEXT_ID_INIT

/-! ### `call_with_rune` / `call` (`src/commando.rs` lines 155–189)

Only the completion path is relevant to the claims: the environment-resolved
outcome of awaiting the oneshot is abstracted as `AwaitOutcome` and the
control-channel send outcome as `sendOk` (`false` when the channel is closed,
i.e. the pump has exited and dropped its receiver). -/

inductive AwaitOutcome where
  | completed (r : Option (Except Error Value))
  | timedOut

/-- The result of `call_with_rune` as a function of the channel state and the
await outcome (`completed none` = the pump dropped the oneshot sender without
sending). -/
def call_with_rune (sendOk : Bool) (wait : Option Nat) (out : AwaitOutcome) :
    Except Error Value :=
  if !sendOk then .error (.io .brokenPipe)
  else
    match wait, out with
    | some _, .timedOut => .error (.io .timedOut)
    | none, .timedOut => .error (.io .timedOut)
    | _, .completed none => .error (.io .brokenPipe)
    | _, .completed (some r) => r

/-- `call` delegates to `call_with_rune` with the client's default rune; the
rune affects only the command payload, not the completion path. -/
def call (sendOk : Bool) (wait : Option Nat) (out : AwaitOutcome) :
    Except Error Value :=
  call_with_rune sendOk wait out

/-! ### Serialization primitives (`util/ser.rs` big-endian writers)

`util/ser.rs` is not among the repository's files; the big-endian fixed-width
writers below are modelled from the spec (§4.1: "read/write big-endian fixed
integers (u8/u16/u32/u64)"). -/

/-- Modelled from the spec: big-endian `u16` write (absent `util/ser.rs`). -/
def u16be (n : Nat) : List Nat :=
  [n / 256 % 256, n % 256]

/-- Modelled from the spec: big-endian `u64` write (absent `util/ser.rs`). -/
def u64be (n : Nat) : List Nat :=
  [n / 2 ^ 56 % 256, n / 2 ^ 48 % 256, n / 2 ^ 40 % 256, n / 2 ^ 32 % 256,
   n / 2 ^ 24 % 256, n / 2 ^ 16 % 256, n / 2 ^ 8 % 256, n % 256]

/-- UTF-8 encoding of one scalar value. -/
def utf8Char (c : Char) : List Nat :=
  let n := c.toNat
  if n < 0x80 then [n]
  else if n < 0x800 then [0xc0 + n / 64, 0x80 + n % 64]
  else if n < 0x10000 then
    [0xe0 + n / 4096, 0x80 + n / 64 % 64, 0x80 + n % 64]
  else
    [0xf0 + n / 262144, 0x80 + n / 4096 % 64, 0x80 + n / 64 % 64, 0x80 + n % 64]

/-- The UTF-8 bytes of a string (`String::into_bytes`). -/
def strBytes (s : String) : List Nat :=
  s.data.flatMap utf8Char

/-! ### Compact JSON rendering (`serde_json::to_string`)

`serde_json` is an external collaborator; its compact rendering of a `Value`
is modelled here: objects and arrays without whitespace, strings with the
standard JSON escapes, integers in decimal. -/

def hexDigit (n : Nat) : String :=
  if n < 10 then toString n
  else if n = 10 then "a"
  else if n = 11 then "b"
  else if n = 12 then "c"
  else if n = 13 then "d"
  else if n = 14 then "e"
  else "f"

/-- JSON string escaping as `serde_json` performs it. -/
def escapeChar (c : Char) : String :=
  if c = '"' then "\\\""
  else if c = '\\' then "\\\\"
  else if c.toNat = 0x08 then "\\b"
  else if c.toNat = 0x09 then "\\t"
  else if c.toNat = 0x0a then "\\n"
  else if c.toNat = 0x0c then "\\f"
  else if c.toNat = 0x0d then "\\r"
  else if c.toNat < 0x20 then "\\u00" ++ hexDigit (c.toNat / 16) ++ hexDigit (c.toNat % 16)
  else String.singleton c

/-- A JSON string literal: quotes around the escaped characters. -/
def quoteString (s : String) : String :=
  "\"" ++ String.join (s.data.map escapeChar) ++ "\""

mutual
/-- Compact rendering of a JSON value, as `serde_json::to_string` emits it. -/
def renderValue : Value → String
  | .null => "null"
  | .bool true => "true"
  | .bool false => "false"
  | .num n => toString n
  | .str s => quoteString s
  | .arr xs => "[" ++ renderArr xs ++ "]"
  | .obj fs => "\x7b" ++ renderObj fs ++ "\x7d"
def renderArr : List Value → String
  | [] => ""
  | [x] => renderValue x
  | x :: y :: xs => renderValue x ++ "," ++ renderArr (y :: xs)
def renderObj : List (String × Value) → String
  | [] => ""
  | [(k, v)] => quoteString k ++ ":" ++ renderValue v
  | (k, v) :: f :: fs =>
    quoteString k ++ ":" ++ renderValue v ++ "," ++ renderObj (f :: fs)
end

/-- `serde_json::to_string(self)` for the derived `Serialize` of
`CommandoCommand`: a compact JSON object whose fields appear in the struct's
declaration order `id, method, params, rune` (`src/commando.rs` lines 50–56). -/
def commandoCommandJson (c : CommandoCommand) : String :=
  renderValue (.obj
    [("id", .num c.id), ("method", .str c.method),
     ("params", c.params), ("rune", .str c.rune)])

/-- `impl Writeable for CommandoCommand` (`src/commando.rs` lines 95–105):
the 8-byte big-endian `id` followed by the JSON bytes. -/
def commandoCommandWrite (c : CommandoCommand) : List Nat :=
  u64be c.id ++ strBytes (commandoCommandJson c)

/-- `wire::write` (`src/ln/wire.rs` lines 150–156): the 2-byte big-endian
`type_id` then the payload; `CommandoCommand::type_id` is `COMMANDO_COMMAND`. -/
def commandoCommandWire (c : CommandoCommand) : List Nat :=
  u16be COMMANDO_COMMAND ++ commandoCommandWrite c

/-! ### Wire read dispatch (`src/ln/wire.rs`)

The five payload decoders live in the absent `ln/msgs.rs`, so `do_read` is
parameterized over them (and over the caller-supplied custom reader, as in
the source); the dispatch itself is translated from lines 109–142 with the
`Encode` type constants of lines 188–206. -/

def initTYPE : Nat := 16
def errorTYPE : Nat := 17
def warningTYPE : Nat := 1
def pingTYPE : Nat := 18
def pongTYPE : Nat := 19

structure Decoders where
  initD : List Nat → Except DecodeError InitMsg
  errD : List Nat → Except DecodeError ErrorMessage
  warnD : List Nat → Except DecodeError WarningMessage
  pingD : List Nat → Except DecodeError Ping
  pongD : List Nat → Except DecodeError Pong

/-- `do_read` (`src/ln/wire.rs` lines 109–142): dispatch on the message type;
unknown tags go to the custom reader, whose `Ok(None)` becomes
`Message::Unknown(tag)`. -/
def do_read {T : Type} (d : Decoders) (buffer : List Nat) (message_type : Nat)
    (custom_reader : Nat → List Nat → Except DecodeError (Option T)) :
    Except DecodeError (Message T) :=
  if message_type = initTYPE then (d.initD buffer).map .init
  else if message_type = errorTYPE then (d.errD buffer).map .error
  else if message_type = warningTYPE then (d.warnD buffer).map .warning
  else if message_type = pingTYPE then (d.pingD buffer).map .ping
  else if message_type = pongTYPE then (d.pongD buffer).map .pong
  else
    match custom_reader message_type buffer with
    | .ok (some c) => .ok (.custom c)
    | .ok none => .ok (.unknown message_type)
    | .error e => .error e

/-- `wire::read` (`src/ln/wire.rs` lines 97–107): read the 2-byte big-endian
type, then `do_read`; decode errors are paired with the type when it was
successfully read. -/
def wireRead {T : Type} (d : Decoders) (buffer : List Nat)
    (custom_reader : Nat → List Nat → Except DecodeError (Option T)) :
    Except (DecodeError × Option Nat) (Message T) :=
  match buffer with
  | b0 :: b1 :: rest =>
    match do_read d rest (b0 * 256 + b1) custom_reader with
    | .ok m => .ok m
    | .error e => .error (e, some (b0 * 256 + b1))
  | _ => .error (.shortRead, none)

/-! ### The synchronous Commando client of `src/lnsocket.rs` -/

/-- `lnsocket::CommandoClient` (`src/lnsocket.rs` lines 28–32). -/
structure LnCommandoClient where
  req_ids : Nat
  rune : String
  chunks : List (Nat × List Nat)

structure CompleteCommandoResponse where
  req_id : Nat
  json : Value

/-- `update_chunks` (`src/lnsocket.rs` lines 71–76): the entry API appends to
an existing accumulator or inserts the chunk as a fresh one, and hands back
the (now updated) accumulator. -/
def update_chunks (c : LnCommandoClient) (cont : CommandoReplyChunk) :
    LnCommandoClient × List Nat :=
  match lookupA c.chunks cont.req_id with
  | some buf =>
    (⟨c.req_ids, c.rune, modifyA (fun b => b ++ cont.chunk) c.chunks cont.req_id⟩,
     buf ++ cont.chunk)
  | none =>
    (⟨c.req_ids, c.rune, insertA c.chunks cont.req_id cont.chunk⟩, cont.chunk)

/-- `finalize_chunks` (`src/lnsocket.rs` lines 78–89): update, parse the full
accumulator, and only on success remove the entry; the `?` on the parse
returns before the `remove`. -/
def finalize_chunks (parse : List Nat → Option Value) (c : LnCommandoClient)
    (cont : CommandoReplyChunk) :
    LnCommandoClient × Except Error CompleteCommandoResponse :=
  let req_id := cont.req_id
  match update_chunks c cont with
  | (c1, r) =>
    match parse r with
    | none => (c1, .error .json)
    | some json =>
      (⟨c1.req_ids, c1.rune, removeA c1.chunks req_id⟩,
       .ok ⟨req_id, json⟩)

/-! ### The optional init exchange (`LNSocket::perform_init`) -/

/-- The Bitcoin mainnet chain hash (`bitcoin::constants::ChainHash::BITCOIN`),
as sent in the `networks` field of our `Init`. -/
def BITCOIN_CHAIN_HASH : List Nat :=
  [0x6f, 0xe2, 0x8c, 0x0a, 0xb6, 0xf1, 0xb3, 0x72, 0xc1, 0xa6, 0xa2, 0x46,
   0xae, 0x63, 0xf7, 0x4f, 0x93, 0x1e, 0x83, 0x65, 0xe1, 0x5a, 0x08, 0x9c,
   0x68, 0xd6, 0x19, 0x00, 0x00, 0x00, 0x00, 0x00]

/-- Modelled from the spec: the `Init` this crate emits (§6: "five zero
feature bytes, two zero global-feature bytes, no remote address, and the
single-element networks list containing the Bitcoin mainnet chain hash"),
matching the literal `msgs::Init` built in the tests of `src/lnsocket.rs`. -/
def ourInit : InitMsg :=
  ⟨List.replicate 2 0, List.replicate 5 0, some [BITCOIN_CHAIN_HASH], none⟩

/-- Modelled from the spec: `LNSocket::perform_init` is referenced by
`src/lib.rs` but its body is not among the repository's files.  §4.5: "Read
exactly one message; require it to be `Init`; reply with our own `Init`.  If
the first inbound message is not `Init`, the connection is abandoned with a
distinguished error."  The argument is the one message read; the result
carries the peer's `Init` and the reply written. -/
def perform_init {T : Type} (first : Message T) :
    Except Error (InitMsg × Message T) :=
  match first with
  | .init i => .ok (i, .init ourInit)
  | _ => .error .firstMessageNotInit

/-! ### Trace vocabulary for the demultiplexing claims -/

/-- Whether an inbound message is one of the two Commando reply types. -/
def isCommandoMsg : Message IncomingCommandoMessage → Bool
  | .custom _ => true
  | _ => false

/-- A list of successfully decoded inbound messages, as pump events. -/
def msgEvents (ms : List (Message IncomingCommandoMessage)) : List PumpEvent :=
  ms.map (fun m => .inbound (.ok m))

/-- The completion results delivered to one oneshot token, in order. -/
def completionsFor (tok : Nat) : List Effect → List (Except Error Value)
  | [] => []
  | .complete t r :: effs =>
    if t = tok then r :: completionsFor tok effs else completionsFor tok effs
  | .sockWrite _ :: effs => completionsFor tok effs

/-- Scan a message sequence for request `r`: accumulate the bytes of `r`'s
chunks in arrival order and return the full body at `r`'s first terminating
chunk (`none` when no terminator for `r` arrives). -/
def bytesUpToDone (r : Nat) : List Nat → List (Message IncomingCommandoMessage) → Option (List Nat)
  | _, [] => none
  | acc, .custom (.chunk c) :: ms =>
    bytesUpToDone r (if c.req_id = r then acc ++ c.chunk else acc) ms
  | acc, .custom (.done c) :: ms =>
    if c.req_id = r then some (acc ++ c.chunk) else bytesUpToDone r acc ms
  | acc, _ :: ms => bytesUpToDone r acc ms

/-- The concatenation of the bytes of request `r`'s continuation chunks in a
message sequence (used when no terminator for `r` arrives). -/
def chunkBytes (r : Nat) : List (Message IncomingCommandoMessage) → List Nat
  | [] => []
  | .custom (.chunk c) :: ms => (if c.req_id = r then c.chunk else []) ++ chunkBytes r ms
  | _ :: ms => chunkBytes r ms

/-! ## Theorems

First the association-list lemmas shared by several claims, then one theorem
per claim (with its witness or counterexample). -/

theorem lookupA_removeA {α : Type} (m : List (Nat × α)) (k q : Nat) :
    lookupA (removeA m k) q = if q = k then none else lookupA m q := by
  induction m with
  | nil => simp [removeA, lookupA]
  | cons kv m ih =>
    obtain ⟨a, v⟩ := kv
    simp only [removeA, lookupA]
    split_ifs with h1 h2 h3 <;> simp_all [lookupA]

theorem lookupA_modifyA {α : Type} (f : α → α) (m : List (Nat × α)) (k q : Nat) :
    lookupA (modifyA f m k) q =
      if q = k then (lookupA m k).map f else lookupA m q := by
  induction m with
  | nil => simp [modifyA, lookupA]
  | cons kv m ih =>
    obtain ⟨a, v⟩ := kv
    simp only [modifyA, lookupA]
    split_ifs with h1 h2 h3 <;> simp_all [lookupA]

theorem lookupA_insertA {α : Type} (m : List (Nat × α)) (k q : Nat) (v : α) :
    lookupA (insertA m k v) q = if q = k then some v else lookupA m q := by
  by_cases hqk : q = k
  · simp [insertA, lookupA, hqk]
  · rw [insertA, lookupA, if_neg (by omega), lookupA_removeA, if_neg hqk,
      if_neg hqk]

theorem mem_removeA {α : Type} {kp : Nat × α} {m : List (Nat × α)} {k : Nat} :
    kp ∈ removeA m k → kp ∈ m ∧ kp.1 ≠ k := by
  induction m with
  | nil => intro h; simp [removeA] at h
  | cons kv m ih =>
    obtain ⟨a, v⟩ := kv
    intro h
    simp only [removeA] at h
    by_cases hak : a = k
    · rw [if_pos hak] at h
      exact ⟨List.mem_cons_of_mem _ (ih h).1, (ih h).2⟩
    · rw [if_neg hak] at h
      rcases List.mem_cons.mp h with h1 | h1
      · subst h1; exact ⟨List.mem_cons_self _ _, hak⟩
      · exact ⟨List.mem_cons_of_mem _ (ih h1).1, (ih h1).2⟩

theorem mem_modifyA {α : Type} (f : α → α) {kp : Nat × α} {m : List (Nat × α)}
    {k : Nat} : kp ∈ modifyA f m k →
    ∃ kq, kq ∈ m ∧ kp.1 = kq.1 ∧ (kp.2 = kq.2 ∨ kp.2 = f kq.2) := by
  induction m with
  | nil => intro h; simp [modifyA] at h
  | cons kv m ih =>
    obtain ⟨a, v⟩ := kv
    intro h
    simp only [modifyA] at h
    by_cases hak : a = k
    · rw [if_pos hak] at h
      rcases List.mem_cons.mp h with h1 | h1
      · subst h1; exact ⟨(a, v), List.mem_cons_self _ _, rfl, Or.inr rfl⟩
      · obtain ⟨kq, hkq, h2⟩ := ih h1
        exact ⟨kq, List.mem_cons_of_mem _ hkq, h2⟩
    · rw [if_neg hak] at h
      rcases List.mem_cons.mp h with h1 | h1
      · subst h1; exact ⟨(a, v), List.mem_cons_self _ _, rfl, Or.inl rfl⟩
      · obtain ⟨kq, hkq, h2⟩ := ih h1
        exact ⟨kq, List.mem_cons_of_mem _ hkq, h2⟩

theorem lookupA_mem {α : Type} {m : List (Nat × α)} {k : Nat} {v : α} :
    lookupA m k = some v → (k, v) ∈ m := by
  induction m with
  | nil => intro h; simp [lookupA] at h
  | cons kv m ih =>
    obtain ⟨a, w⟩ := kv
    intro h
    simp only [lookupA] at h
    by_cases hak : a = k
    · rw [if_pos hak] at h
      subst hak
      rw [Option.some_inj] at h
      subst h
      exact List.mem_cons_self _ _
    · rw [if_neg hak] at h
      exact List.mem_cons_of_mem _ (ih h)

/-! ### C1 — request-ID allocation -/

theorem allocIds_no_wrap (k : Nat) :
    ∀ n, n + k ≤ U64_MOD → allocIds k n = (List.range k).map (fun i => n + i) := by
  induction k with
  | zero => intro n _; simp [allocIds]
  | succ j ih =>
    intro n h
    rcases Nat.eq_zero_or_pos j with hj | hj
    · subst hj
      simp [allocIds, alloc_id, List.range_succ]
    · have h1 : (n + 1) % U64_MOD = n + 1 := Nat.mod_eq_of_lt (by omega)
      have h2 : allocIds (j + 1) n = n :: allocIds j (n + 1) := by
        simp [allocIds, alloc_id, h1]
      rw [h2, ih (n + 1) (by omega), List.range_succ_eq_map, List.map_cons,
        List.map_map]
      have hf : (fun i => n + i) ∘ Nat.succ = fun i => (n + 1) + i := by
        funext i; simp; omega
      rw [hf]
      simp

/-- C1, counterexample: `next_id` starts at 1 (`AtomicU64::new(1)`) and
`fetch_add` returns the previous value, so the very first allocated request
ID is 1 — the claim that every allocated ID is strictly greater than 1 and
that ID 1 is never allocated fails on the first `call`. -/
theorem alloc_first_id_is_one :
    clientAllocIds 2 = [1, 2] ∧ 1 ∈ clientAllocIds 2 ∧ ¬ 1 < 1 := by
  refine ⟨by decide, by decide, by decide⟩

/-- C1, amended: request IDs are allocated monotonically from 1 upward (the
first ID is 1, not 2): over any `k ≤ 2^64 - 1` allocations — concurrent
calls linearized by the atomic `fetch_add` — the IDs are exactly
`1, 2, …, k`, pairwise distinct, strictly increasing, and strictly
positive. -/
theorem client_alloc_ids_distinct_from_one (k : Nat) (h : k ≤ U64_MOD - 1) :
    clientAllocIds k = (List.range k).map (fun i => 1 + i)
    ∧ List.Pairwise (· < ·) (clientAllocIds k)
    ∧ ∀ i ∈ clientAllocIds k, 0 < i := by
  have he : clientAllocIds k = (List.range k).map (fun i => 1 + i) :=
    allocIds_no_wrap k 1 (by unfold U64_MOD at *; omega)
  refine ⟨he, ?_, ?_⟩
  · rw [he]
    exact (List.pairwise_lt_range k).map _ (fun a b hab => by omega)
  · intro i hi
    rw [he] at hi
    obtain ⟨a, _, rfl⟩ := List.mem_map.mp hi
    omega

/-- C1, witness: the first three allocated IDs are 1, 2, 3. -/
theorem client_alloc_ids_distinct_from_one_witness :
    clientAllocIds 3 = (List.range 3).map (fun i => 1 + i)
    ∧ List.Pairwise (· < ·) (clientAllocIds 3) :=
  ⟨(client_alloc_ids_distinct_from_one 3 (by decide)).1,
   (client_alloc_ids_distinct_from_one 3 (by decide)).2.1⟩

/-! ### C3 — registration before write, rollback on write failure -/

/-- C3: handling `Ctrl::Start` first inserts the pending entry (with empty
accumulator), so the entry is visible in the map the write runs against; a
successful write leaves exactly that insertion; a failed write removes the
entry again and fails the completion with `Error::Io(kind)`, leaving no
pending entry for the request ID (and the pump keeps running). -/
theorem pump_start_registration (parse : List Nat → Option Value)
    (st : Pending) (cmd : CommandoCommand) (tok : Nat) :
    lookupA (insertA st cmd.id ⟨tok, []⟩) cmd.id = some ⟨tok, []⟩
    ∧ pumpStep parse st (.ctrlStart cmd tok none) =
        (insertA st cmd.id ⟨tok, []⟩, [.sockWrite (.cmd cmd)], false)
    ∧ ∀ k : IoErrorKind,
        (pumpStep parse st (.ctrlStart cmd tok (some k))).2.1 =
          [.sockWrite (.cmd cmd), .complete tok (.error (.io k))]
        ∧ lookupA (pumpStep parse st (.ctrlStart cmd tok (some k))).1 cmd.id = none
        ∧ (pumpStep parse st (.ctrlStart cmd tok (some k))).2.2 = false := by
  have hl : lookupA (insertA st cmd.id ⟨tok, []⟩) cmd.id = some ⟨tok, []⟩ := by
    rw [lookupA_insertA]; simp
  refine ⟨hl, rfl, ?_⟩
  intro k
  have hstep : pumpStep parse st (.ctrlStart cmd tok (some k)) =
      (removeA (insertA st cmd.id ⟨tok, []⟩) cmd.id,
       [.sockWrite (.cmd cmd), .complete tok (.error (.io k))], false) := by
    simp [pumpStep, hl]
  rw [hstep]
  refine ⟨rfl, ?_, rfl⟩
  rw [lookupA_removeA]
  simp

/-! ### C5 — ping handling -/

/-- C5: an inbound `Ping { ponglen = p, byteslen = q }` makes the pump write
exactly one `Pong` whose `byteslen` equals `p` — the incoming `byteslen` `q`
does not appear in the output — and leaves the pending map unchanged (and
the loop running). -/
theorem pump_ping_pong (parse : List Nat → Option Value) (st : Pending)
    (p q : Nat) :
    pumpStep parse st (.inbound (.ok (.ping ⟨p, q⟩))) =
      (st, [.sockWrite (.pong ⟨p⟩)], false) := rfl

/-! ### C4 — fatal read error -/

/-- C4: when the pump's socket read returns an error `e`, every pending
completion is failed with (a clone of) that same error, the pending map is
drained to empty, and the loop breaks; and once the pump has exited — its
control-channel receiver dropped — every subsequent `call` or
`call_with_rune` fails with `Error::Io(BrokenPipe)` (`sendOk = false` models
the closed channel). -/
theorem pump_fatal_read_error (parse : List Nat → Option Value)
    (st : Pending) (e : Error) :
    pumpStep parse st (.inbound (.error e)) =
      ([], st.map (fun kp => .complete kp.2.done_tx (.error e)), true)
    ∧ (∀ kp ∈ st, Effect.complete kp.2.done_tx (.error e) ∈
        (pumpStep parse st (.inbound (.error e))).2.1)
    ∧ (∀ wait out, call_with_rune false wait out = .error (.io .brokenPipe))
    ∧ (∀ wait out, call false wait out = .error (.io .brokenPipe)) := by
  refine ⟨rfl, ?_, fun _ _ => rfl, fun _ _ => rfl⟩
  intro kp hkp
  exact List.mem_map_of_mem _ hkp

/-- C4, witness: a concrete pending entry is failed with the read error, and
a call over the closed channel fails with `BrokenPipe`. -/
theorem pump_fatal_read_error_witness :
    Effect.complete 7 (.error .json) ∈
      (pumpStep (fun _ => none) [(2, ⟨7, []⟩)] (.inbound (.error .json))).2.1
    ∧ call_with_rune false none (.completed none) = .error (.io .brokenPipe) := by
  have h := pump_fatal_read_error (fun _ => none) [(2, ⟨7, []⟩)] .json
  exact ⟨h.2.1 (2, ⟨7, []⟩) (List.mem_singleton_self _),
    h.2.2.1 none (.completed none)⟩

/-! ### C6 — terminating chunk delivery -/

/-- C6: on a `Done` whose request ID is pending, the pump appends the final
bytes, removes exactly that entry (all other pending entries' lookups are
unchanged), and delivers `serde_json::from_slice` of the full accumulator to
that completion — a successful parse as `Ok(json)`, a parse failure as
`Err(Error::Json)`; a `Done` for a non-pending ID changes nothing and emits
nothing. -/
theorem pump_done_delivery (parse : List Nat → Option Value) (st : Pending)
    (c : CommandoReplyChunk) :
    (∀ p : InProgress, lookupA st c.req_id = some p →
      pumpStep parse st (.inbound (.ok (.custom (.done c)))) =
        (removeA st c.req_id,
         [.complete p.done_tx (jsonResult parse (p.buf ++ c.chunk))], false)
      ∧ lookupA (removeA st c.req_id) c.req_id = none
      ∧ ∀ r, r ≠ c.req_id → lookupA (removeA st c.req_id) r = lookupA st r)
    ∧ (lookupA st c.req_id = none →
      pumpStep parse st (.inbound (.ok (.custom (.done c)))) = (st, [], false))
    ∧ (∀ bs v, parse bs = some v → jsonResult parse bs = .ok v)
    ∧ (∀ bs, parse bs = none → jsonResult parse bs = .error .json) := by
  refine ⟨?_, ?_, ?_, ?_⟩
  · intro p hp
    refine ⟨by simp [pumpStep, hp], by rw [lookupA_removeA]; simp, ?_⟩
    intro r hr
    rw [lookupA_removeA, if_neg hr]
  · intro h
    simp [pumpStep, h]
  · intro bs v h
    simp [jsonResult, h]
  · intro bs h
    simp [jsonResult, h]

/-- C6, witness: a pending entry with buffered bytes `[97]` receives a
terminator carrying `[98]`; the completion gets the parse of `[97] ++ [98]`
(here a parse failure, delivered as `Error::Json`) and the entry is gone. -/
theorem pump_done_delivery_witness :
    pumpStep (fun _ => none) [(4, ⟨9, [97]⟩)]
        (.inbound (.ok (.custom (.done ⟨4, [98]⟩)))) =
      ([], [.complete 9 (jsonResult (fun _ => none) ([97] ++ [98]))], false)
    ∧ jsonResult (fun _ => none) [97, 98] = .error .json := by
  have h := pump_done_delivery (fun _ => none) [(4, ⟨9, [97]⟩)] ⟨4, [98]⟩
  have h1 := (h.1 ⟨9, [97]⟩ rfl).1
  exact ⟨by rw [h1]; rfl, h.2.2.2 [97, 98] rfl⟩

/-! ### C10 — `finalize_chunks` keeps the entry on parse failure -/

/-- C10: `lnsocket::CommandoClient::finalize_chunks` removes the request's
accumulated entry from the `chunks` map only when the JSON parse of the full
accumulator succeeds; on failure the `?` returns `Error::Json` before the
`remove`, so the (now complete) accumulator is still present under that
request ID. -/
theorem finalize_chunks_remove_iff_parse_ok (parse : List Nat → Option Value)
    (client : LnCommandoClient) (cont : CommandoReplyChunk) :
    (parse (update_chunks client cont).2 = none →
      (finalize_chunks parse client cont).2 = .error .json
      ∧ lookupA (finalize_chunks parse client cont).1.chunks cont.req_id =
          some (update_chunks client cont).2)
    ∧ (∀ v, parse (update_chunks client cont).2 = some v →
      (finalize_chunks parse client cont).2 = .ok ⟨cont.req_id, v⟩
      ∧ lookupA (finalize_chunks parse client cont).1.chunks cont.req_id =
          none) := by
  have hu : lookupA (update_chunks client cont).1.chunks cont.req_id =
      some (update_chunks client cont).2 := by
    cases hb : lookupA client.chunks cont.req_id with
    | none => simp [update_chunks, hb, lookupA_insertA]
    | some buf => simp [update_chunks, hb, lookupA_modifyA]
  constructor
  · intro hp
    have hf : finalize_chunks parse client cont =
        ((update_chunks client cont).1, .error .json) := by
      simp [finalize_chunks, hp]
    rw [hf]
    exact ⟨rfl, hu⟩
  · intro v hp
    have hf : finalize_chunks parse client cont =
        (⟨(update_chunks client cont).1.req_ids, (update_chunks client cont).1.rune,
          removeA (update_chunks client cont).1.chunks cont.req_id⟩,
         .ok ⟨cont.req_id, v⟩) := by
      simp [finalize_chunks, hp]
    rw [hf]
    refine ⟨rfl, ?_⟩
    rw [lookupA_removeA]
    simp

/-- C10, witness: with a parser that fails, the entry `[102]` stays in the
map and the JSON error is returned; with one that succeeds, it is removed. -/
theorem finalize_chunks_remove_iff_parse_ok_witness :
    (finalize_chunks (fun _ => none) ⟨2, "", []⟩ ⟨5, [102]⟩).2 = .error .json
    ∧ lookupA (finalize_chunks (fun _ => none) ⟨2, "", []⟩ ⟨5, [102]⟩).1.chunks 5 =
        some (update_chunks ⟨2, "", []⟩ ⟨5, [102]⟩).2
    ∧ lookupA (finalize_chunks (fun _ => some .null) ⟨2, "", []⟩ ⟨5, [102]⟩).1.chunks 5 =
        none := by
  have h1 := (finalize_chunks_remove_iff_parse_ok (fun _ => none)
    ⟨2, "", []⟩ ⟨5, [102]⟩).1 rfl
  have h2 := (finalize_chunks_remove_iff_parse_ok (fun _ => some .null)
    ⟨2, "", []⟩ ⟨5, [102]⟩).2 .null rfl
  exact ⟨h1.1, h1.2, h2.2⟩

/-! ### C7 — Commando command wire format -/

theorem strBytes_append (a b : String) :
    strBytes (a ++ b) = strBytes a ++ strBytes b := by
  simp [strBytes, String.data_append]

/-- C7: the serialized wire form of every `CommandoCommand` is the 2-byte
big-endian type tag `0x4c4f`, then the 8-byte big-endian request ID, then the
UTF-8 bytes of the compact JSON object with exactly the field names `id`,
`method`, `params`, `rune` in that order; the last byte is `0x7d` (the
closing brace), so there is no trailing newline. -/
theorem commando_command_wire_format (c : CommandoCommand) :
    commandoCommandWire c =
      0x4c :: 0x4f :: (u64be c.id ++ strBytes (commandoCommandJson c))
    ∧ (u64be c.id).length = 8
    ∧ commandoCommandJson c =
        "\x7b" ++ (quoteString "id" ++ ":" ++ toString (c.id : Int) ++ ","
          ++ (quoteString "method" ++ ":" ++ quoteString c.method ++ ","
          ++ (quoteString "params" ++ ":" ++ renderValue c.params ++ ","
          ++ (quoteString "rune" ++ ":" ++ quoteString c.rune)))) ++ "\x7d"
    ∧ quoteString "id" = "\"id\""
    ∧ quoteString "method" = "\"method\""
    ∧ quoteString "params" = "\"params\""
    ∧ quoteString "rune" = "\"rune\""
    ∧ (strBytes (commandoCommandJson c)).getLast? = some 0x7d := by
  have hjson : commandoCommandJson c =
      "\x7b" ++ (quoteString "id" ++ ":" ++ toString (c.id : Int) ++ ","
        ++ (quoteString "method" ++ ":" ++ quoteString c.method ++ ","
        ++ (quoteString "params" ++ ":" ++ renderValue c.params ++ ","
        ++ (quoteString "rune" ++ ":" ++ quoteString c.rune)))) ++ "\x7d" := by
    simp [commandoCommandJson, renderValue, renderObj]
  have htag : u16be COMMANDO_COMMAND = [0x4c, 0x4f] := by decide
  refine ⟨?_, by simp [u64be], hjson, rfl, rfl, rfl, rfl, ?_⟩
  · simp [commandoCommandWire, commandoCommandWrite, htag]
  · rw [hjson, strBytes_append]
    have h7d : strBytes "\x7d" = [0x7d] := rfl
    rw [h7d]
    exact List.getLast?_concat _

/-! ### C8 — wire read dispatch -/

/-- C8: `wire::read` decodes a 2-byte big-endian type tag and `do_read`
dispatches it — 16 to `Init`, 17 to `Error`, 1 to `Warning`, 18 to `Ping`,
19 to `Pong` via the respective payload decoders; every other tag goes to
the caller-supplied custom reader, and when that reader answers `Ok(None)`
("don't know") the result is `Ok(Message::Unknown(tag))` rather than an
error, for every payload. -/
theorem wire_read_dispatch {T : Type} (d : Decoders) (buffer : List Nat)
    (custom_reader : Nat → List Nat → Except DecodeError (Option T)) :
    do_read d buffer initTYPE custom_reader = (d.initD buffer).map .init
    ∧ do_read d buffer errorTYPE custom_reader = (d.errD buffer).map .error
    ∧ do_read d buffer warningTYPE custom_reader = (d.warnD buffer).map .warning
    ∧ do_read d buffer pingTYPE custom_reader = (d.pingD buffer).map .ping
    ∧ do_read d buffer pongTYPE custom_reader = (d.pongD buffer).map .pong
    ∧ (∀ tag, tag ∉ ([initTYPE, errorTYPE, warningTYPE, pingTYPE, pongTYPE] : List Nat) →
        (custom_reader tag buffer = .ok none →
          do_read d buffer tag custom_reader = .ok (.unknown tag))
        ∧ (∀ t, custom_reader tag buffer = .ok (some t) →
          do_read d buffer tag custom_reader = .ok (.custom t))
        ∧ (∀ e, custom_reader tag buffer = .error e →
          do_read d buffer tag custom_reader = .error e))
    ∧ (∀ b0 b1 rest, wireRead d (b0 :: b1 :: rest) custom_reader =
        match do_read d rest (b0 * 256 + b1) custom_reader with
        | .ok m => .ok m
        | .error e => .error (e, some (b0 * 256 + b1)))
    ∧ wireRead d [] custom_reader = .error (.shortRead, none) := by
  refine ⟨by simp [do_read, initTYPE, errorTYPE, warningTYPE, pingTYPE, pongTYPE],
    by simp [do_read, initTYPE, errorTYPE, warningTYPE, pingTYPE, pongTYPE],
    by simp [do_read, initTYPE, errorTYPE, warningTYPE, pingTYPE, pongTYPE],
    by simp [do_read, initTYPE, errorTYPE, warningTYPE, pingTYPE, pongTYPE],
    by simp [do_read, initTYPE, errorTYPE, warningTYPE, pingTYPE, pongTYPE],
    ?_, fun _ _ _ => rfl, rfl⟩
  intro tag htag
  simp only [List.mem_cons, List.not_mem_nil, or_false, not_or,
    initTYPE, errorTYPE, warningTYPE, pingTYPE, pongTYPE] at htag
  obtain ⟨h16, h17, h1, h18, h19⟩ := htag
  refine ⟨?_, ?_, ?_⟩
  · intro hc
    simp [do_read, initTYPE, errorTYPE, warningTYPE, pingTYPE, pongTYPE,
      h16, h17, h1, h18, h19, hc]
  · intro t hc
    simp [do_read, initTYPE, errorTYPE, warningTYPE, pingTYPE, pongTYPE,
      h16, h17, h1, h18, h19, hc]
  · intro e hc
    simp [do_read, initTYPE, errorTYPE, warningTYPE, pingTYPE, pongTYPE,
      h16, h17, h1, h18, h19, hc]

/-- C8, witness: the Commando command tag `0x4c4f` is unknown to the five
built-in decoders; with a custom reader answering "don't know" the result is
`Unknown(0x4c4f)`, not an error. -/
theorem wire_read_dispatch_witness :
    do_read (T := Unit)
      ⟨fun _ => .error .shortRead, fun _ => .error .shortRead,
       fun _ => .error .shortRead, fun _ => .error .shortRead,
       fun _ => .error .shortRead⟩
      [] 0x4c4f (fun _ _ => .ok none) = .ok (.unknown 0x4c4f) := by
  have h := (wire_read_dispatch (T := Unit)
    ⟨fun _ => .error .shortRead, fun _ => .error .shortRead,
     fun _ => .error .shortRead, fun _ => .error .shortRead,
     fun _ => .error .shortRead⟩
    [] (fun _ _ => .ok none)).2.2.2.2.2.1 0x4c4f (by decide)
  exact h.1 rfl

/-! ### C9 — the optional init exchange -/

/-- C9 (spec-modelled, `perform_init` is absent from the repository's files):
the init exchange consumes exactly one inbound message; when it is `Init`
the peer's `Init` is returned and our own `Init` is written in reply, and
when it is anything else the exchange fails with the distinguished
`Error::FirstMessageNotInit`. -/
theorem perform_init_first_message (T : Type) (m : Message T) :
    (∀ i, m = .init i → perform_init m = .ok (i, .init ourInit))
    ∧ ((∀ i, m ≠ .init i) → perform_init m = .error .firstMessageNotInit) := by
  constructor
  · rintro i rfl; rfl
  · intro h
    cases m with
    | init i => exact absurd rfl (h i)
    | error m => rfl
    | warning m => rfl
    | ping m => rfl
    | pong m => rfl
    | unknown tag => rfl
    | custom msg => rfl

/-- C9, witness: a `Ping` as first message is rejected with
`FirstMessageNotInit`; an `Init` is accepted and answered with our `Init`. -/
theorem perform_init_first_message_witness :
    perform_init (T := Unit) (.ping ⟨1, 2⟩) = .error .firstMessageNotInit
    ∧ perform_init (T := Unit) (.init ourInit) = .ok (ourInit, .init ourInit) := by
  have h1 := (perform_init_first_message Unit (.ping ⟨1, 2⟩)).2
    (fun i h => nomatch h)
  have h2 := (perform_init_first_message Unit (.init ourInit)).1 ourInit rfl
  exact ⟨h1, h2⟩

/-! ### C2 — per-request demultiplexing -/

theorem completionsFor_append (tok : Nat) (e1 e2 : List Effect) :
    completionsFor tok (e1 ++ e2) =
      completionsFor tok e1 ++ completionsFor tok e2 := by
  induction e1 with
  | nil => rfl
  | cons eff e1 ih =>
    cases eff with
    | sockWrite m => simpa [completionsFor] using ih
    | complete t r =>
      by_cases h : t = tok <;> simp [completionsFor, h, ih]

theorem pumpRun_cons (parse : List Nat → Option Value) (st : Pending)
    (ev : PumpEvent) (evs : List PumpEvent) (st1 : Pending)
    (effs : List Effect) (h : pumpStep parse st ev = (st1, effs, false)) :
    pumpRun parse st (ev :: evs) =
      ((pumpRun parse st1 evs).1,
       effs ++ (pumpRun parse st1 evs).2.1,
       (pumpRun parse st1 evs).2.2) := by
  rcases hr : pumpRun parse st1 evs with ⟨a, b, c⟩
  simp [pumpRun, h, hr]

/-- A run of Commando reply messages over a pending map in which no entry
holds the oneshot token `tok` never completes `tok`, never breaks, and never
creates an entry under a key that was absent. -/
theorem pump_run_silent (parse : List Nat → Option Value) (tok : Nat) :
    ∀ (ms : List (Message IncomingCommandoMessage)) (st : Pending),
      (∀ m ∈ ms, isCommandoMsg m = true) →
      (∀ kp ∈ st, kp.2.done_tx ≠ tok) →
      completionsFor tok (pumpRun parse st (msgEvents ms)).2.1 = []
      ∧ (pumpRun parse st (msgEvents ms)).2.2 = false
      ∧ (∀ q, lookupA st q = none →
          lookupA (pumpRun parse st (msgEvents ms)).1 q = none) := by
  intro ms
  induction ms with
  | nil => exact fun st _ _ => ⟨rfl, rfl, fun q h => h⟩
  | cons m ms ih =>
    intro st hall hnt
    have hm : isCommandoMsg m = true := hall m (List.mem_cons_self _ _)
    have hms : ∀ m' ∈ ms, isCommandoMsg m' = true :=
      fun m' h => hall m' (List.mem_cons_of_mem _ h)
    cases m with
    | init m => simp [isCommandoMsg] at hm
    | error m => simp [isCommandoMsg] at hm
    | warning m => simp [isCommandoMsg] at hm
    | ping m => simp [isCommandoMsg] at hm
    | pong m => simp [isCommandoMsg] at hm
    | unknown t => simp [isCommandoMsg] at hm
    | custom ic =>
      cases ic with
      | chunk c =>
        cases hc : lookupA st c.req_id with
        | some p =>
          have hstep : pumpStep parse st (.inbound (.ok (.custom (.chunk c)))) =
              (modifyA (fun q => ⟨q.done_tx, q.buf ++ c.chunk⟩) st c.req_id,
               [], false) := by
            simp [pumpStep, hc]
          have hnt1 : ∀ kp ∈ modifyA (fun q => ⟨q.done_tx, q.buf ++ c.chunk⟩) st
              c.req_id, kp.2.done_tx ≠ tok := by
            intro kp hkp
            obtain ⟨kq, hkq, _, hsnd⟩ := mem_modifyA _ hkp
            rcases hsnd with h | h
            · rw [h]; exact hnt kq hkq
            · rw [h]; exact hnt kq hkq
          obtain ⟨ih1, ih2, ih3⟩ := ih _ hms hnt1
          rw [show msgEvents (Message.custom (IncomingCommandoMessage.chunk c) :: ms) =
            .inbound (.ok (.custom (.chunk c))) :: msgEvents ms from rfl,
            pumpRun_cons parse st _ _ _ _ hstep]
          refine ⟨by simpa using ih1, ih2, ?_⟩
          intro q hq
          refine ih3 q ?_
          rw [lookupA_modifyA]
          by_cases hqc : q = c.req_id
          · rw [hqc] at hq; rw [hq] at hc; cases hc
          · rw [if_neg hqc]; exact hq
        | none =>
          have hstep : pumpStep parse st (.inbound (.ok (.custom (.chunk c)))) =
              (st, [], false) := by
            simp [pumpStep, hc]
          obtain ⟨ih1, ih2, ih3⟩ := ih st hms hnt
          rw [show msgEvents (Message.custom (IncomingCommandoMessage.chunk c) :: ms) =
            .inbound (.ok (.custom (.chunk c))) :: msgEvents ms from rfl,
            pumpRun_cons parse st _ _ _ _ hstep]
          exact ⟨by simpa using ih1, ih2, ih3⟩
      | done c =>
        cases hc : lookupA st c.req_id with
        | some p =>
          have hstep : pumpStep parse st (.inbound (.ok (.custom (.done c)))) =
              (removeA st c.req_id,
               [.complete p.done_tx (jsonResult parse (p.buf ++ c.chunk))],
               false) := by
            simp [pumpStep, hc]
          have hnt1 : ∀ kp ∈ removeA st c.req_id, kp.2.done_tx ≠ tok :=
            fun kp hkp => hnt kp (mem_removeA hkp).1
          obtain ⟨ih1, ih2, ih3⟩ := ih _ hms hnt1
          have hpne : p.done_tx ≠ tok := hnt (c.req_id, p) (lookupA_mem hc)
          rw [show msgEvents (Message.custom (IncomingCommandoMessage.done c) :: ms) =
            .inbound (.ok (.custom (.done c))) :: msgEvents ms from rfl,
            pumpRun_cons parse st _ _ _ _ hstep]
          refine ⟨?_, ih2, ?_⟩
          · rw [completionsFor_append, ih1]
            simp [completionsFor, hpne]
          · intro q hq
            refine ih3 q ?_
            rw [lookupA_removeA]
            by_cases hqc : q = c.req_id
            · rw [if_pos hqc]
            · rw [if_neg hqc]; exact hq
        | none =>
          have hstep : pumpStep parse st (.inbound (.ok (.custom (.done c)))) =
              (st, [], false) := by
            simp [pumpStep, hc]
          obtain ⟨ih1, ih2, ih3⟩ := ih st hms hnt
          rw [show msgEvents (Message.custom (IncomingCommandoMessage.done c) :: ms) =
            .inbound (.ok (.custom (.done c))) :: msgEvents ms from rfl,
            pumpRun_cons parse st _ _ _ _ hstep]
          exact ⟨by simpa using ih1, ih2, ih3⟩

/-- The generalized per-request run invariant: for a pending request `r`
whose accumulator currently holds `acc` and whose token `tok` is held by no
other entry, a run of Commando reply messages completes `tok` exactly once —
with the JSON parse of `acc` extended by `r`'s chunk bytes in arrival order
up to and including `r`'s first terminator — or, when no terminator for `r`
arrives, never completes `tok` and leaves `r` pending with exactly its own
chunk bytes appended. -/
theorem pump_run_demux (parse : List Nat → Option Value) (r tok : Nat) :
    ∀ (ms : List (Message IncomingCommandoMessage)) (st : Pending)
      (acc : List Nat),
      (∀ m ∈ ms, isCommandoMsg m = true) →
      lookupA st r = some ⟨tok, acc⟩ →
      (∀ kp ∈ st, kp.2.done_tx = tok → kp.1 = r) →
      (pumpRun parse st (msgEvents ms)).2.2 = false
      ∧ (∀ bs, bytesUpToDone r acc ms = some bs →
          completionsFor tok (pumpRun parse st (msgEvents ms)).2.1 =
            [jsonResult parse bs]
          ∧ lookupA (pumpRun parse st (msgEvents ms)).1 r = none)
      ∧ (bytesUpToDone r acc ms = none →
          completionsFor tok (pumpRun parse st (msgEvents ms)).2.1 = []
          ∧ lookupA (pumpRun parse st (msgEvents ms)).1 r =
              some ⟨tok, acc ++ chunkBytes r ms⟩) := by
  intro ms
  induction ms with
  | nil =>
    intro st acc _ hlook _
    refine ⟨rfl, ?_, ?_⟩
    · intro bs hbs
      simp [bytesUpToDone] at hbs
    · intro _
      refine ⟨rfl, ?_⟩
      simpa [chunkBytes] using hlook
  | cons m ms ih =>
    intro st acc hall hlook htok
    have hm : isCommandoMsg m = true := hall m (List.mem_cons_self _ _)
    have hms : ∀ m' ∈ ms, isCommandoMsg m' = true :=
      fun m' h => hall m' (List.mem_cons_of_mem _ h)
    cases m with
    | init m => simp [isCommandoMsg] at hm
    | error m => simp [isCommandoMsg] at hm
    | warning m => simp [isCommandoMsg] at hm
    | ping m => simp [isCommandoMsg] at hm
    | pong m => simp [isCommandoMsg] at hm
    | unknown t => simp [isCommandoMsg] at hm
    | custom ic =>
      cases ic with
      | chunk c =>
        by_cases hreq : c.req_id = r
        · subst hreq
          have hstep : pumpStep parse st (.inbound (.ok (.custom (.chunk c)))) =
              (modifyA (fun q => ⟨q.done_tx, q.buf ++ c.chunk⟩) st c.req_id,
               [], false) := by
            simp [pumpStep, hlook]
          have hlook1 : lookupA (modifyA (fun q => ⟨q.done_tx, q.buf ++ c.chunk⟩)
              st c.req_id) c.req_id = some ⟨tok, acc ++ c.chunk⟩ := by
            rw [lookupA_modifyA, if_pos rfl, hlook]; rfl
          have htok1 : ∀ kp ∈ modifyA (fun q => ⟨q.done_tx, q.buf ++ c.chunk⟩)
              st c.req_id, kp.2.done_tx = tok → kp.1 = c.req_id := by
            intro kp hkp he
            obtain ⟨kq, hkq, hfst, hsnd⟩ := mem_modifyA _ hkp
            rw [hfst]
            rcases hsnd with h | h
            · exact htok kq hkq (h ▸ he)
            · rw [h] at he
              exact htok kq hkq he
          obtain ⟨ih1, ih2, ih3⟩ := ih _ (acc ++ c.chunk) hms hlook1 htok1
          rw [show msgEvents (Message.custom (IncomingCommandoMessage.chunk c) :: ms) =
            .inbound (.ok (.custom (.chunk c))) :: msgEvents ms from rfl,
            pumpRun_cons parse st _ _ _ _ hstep]
          refine ⟨ih1, ?_, ?_⟩
          · intro bs hbs
            rw [show bytesUpToDone c.req_id acc
                (Message.custom (IncomingCommandoMessage.chunk c) :: ms) =
              bytesUpToDone c.req_id (acc ++ c.chunk) ms from by
                simp [bytesUpToDone]] at hbs
            obtain ⟨ha, hb⟩ := ih2 bs hbs
            exact ⟨by simpa using ha, hb⟩
          · intro hbs
            rw [show bytesUpToDone c.req_id acc
                (Message.custom (IncomingCommandoMessage.chunk c) :: ms) =
              bytesUpToDone c.req_id (acc ++ c.chunk) ms from by
                simp [bytesUpToDone]] at hbs
            obtain ⟨ha, hb⟩ := ih3 hbs
            refine ⟨by simpa using ha, ?_⟩
            rw [hb, show chunkBytes c.req_id
                (Message.custom (IncomingCommandoMessage.chunk c) :: ms) =
              c.chunk ++ chunkBytes c.req_id ms from by simp [chunkBytes]]
            rw [List.append_assoc]
        · cases hc : lookupA st c.req_id with
          | some p =>
            have hstep : pumpStep parse st (.inbound (.ok (.custom (.chunk c)))) =
                (modifyA (fun q => ⟨q.done_tx, q.buf ++ c.chunk⟩) st c.req_id,
                 [], false) := by
              simp [pumpStep, hc]
            have hlook1 : lookupA (modifyA (fun q => ⟨q.done_tx, q.buf ++ c.chunk⟩)
                st c.req_id) r = some ⟨tok, acc⟩ := by
              rw [lookupA_modifyA, if_neg (fun h => hreq h.symm)]
              exact hlook
            have htok1 : ∀ kp ∈ modifyA (fun q => ⟨q.done_tx, q.buf ++ c.chunk⟩)
                st c.req_id, kp.2.done_tx = tok → kp.1 = r := by
              intro kp hkp he
              obtain ⟨kq, hkq, hfst, hsnd⟩ := mem_modifyA _ hkp
              rw [hfst]
              rcases hsnd with h | h
              · exact htok kq hkq (h ▸ he)
              · rw [h] at he
                exact htok kq hkq he
            obtain ⟨ih1, ih2, ih3⟩ := ih _ acc hms hlook1 htok1
            rw [show msgEvents (Message.custom (IncomingCommandoMessage.chunk c) :: ms) =
              .inbound (.ok (.custom (.chunk c))) :: msgEvents ms from rfl,
              pumpRun_cons parse st _ _ _ _ hstep]
            refine ⟨ih1, ?_, ?_⟩
            · intro bs hbs
              rw [show bytesUpToDone r acc
                  (Message.custom (IncomingCommandoMessage.chunk c) :: ms) =
                bytesUpToDone r acc ms from by simp [bytesUpToDone, hreq]] at hbs
              obtain ⟨ha, hb⟩ := ih2 bs hbs
              exact ⟨by simpa using ha, hb⟩
            · intro hbs
              rw [show bytesUpToDone r acc
                  (Message.custom (IncomingCommandoMessage.chunk c) :: ms) =
                bytesUpToDone r acc ms from by simp [bytesUpToDone, hreq]] at hbs
              obtain ⟨ha, hb⟩ := ih3 hbs
              refine ⟨by simpa using ha, ?_⟩
              rw [hb, show chunkBytes r
                  (Message.custom (IncomingCommandoMessage.chunk c) :: ms) =
                chunkBytes r ms from by simp [chunkBytes, hreq]]
          | none =>
            have hstep : pumpStep parse st (.inbound (.ok (.custom (.chunk c)))) =
                (st, [], false) := by
              simp [pumpStep, hc]
            obtain ⟨ih1, ih2, ih3⟩ := ih st acc hms hlook htok
            rw [show msgEvents (Message.custom (IncomingCommandoMessage.chunk c) :: ms) =
              .inbound (.ok (.custom (.chunk c))) :: msgEvents ms from rfl,
              pumpRun_cons parse st _ _ _ _ hstep]
            refine ⟨ih1, ?_, ?_⟩
            · intro bs hbs
              rw [show bytesUpToDone r acc
                  (Message.custom (IncomingCommandoMessage.chunk c) :: ms) =
                bytesUpToDone r acc ms from by simp [bytesUpToDone, hreq]] at hbs
              obtain ⟨ha, hb⟩ := ih2 bs hbs
              exact ⟨by simpa using ha, hb⟩
            · intro hbs
              rw [show bytesUpToDone r acc
                  (Message.custom (IncomingCommandoMessage.chunk c) :: ms) =
                bytesUpToDone r acc ms from by simp [bytesUpToDone, hreq]] at hbs
              obtain ⟨ha, hb⟩ := ih3 hbs
              refine ⟨by simpa using ha, ?_⟩
              rw [hb, show chunkBytes r
                  (Message.custom (IncomingCommandoMessage.chunk c) :: ms) =
                chunkBytes r ms from by simp [chunkBytes, hreq]]
      | done c =>
        by_cases hreq : c.req_id = r
        · subst hreq
          have hstep : pumpStep parse st (.inbound (.ok (.custom (.done c)))) =
              (removeA st c.req_id,
               [.complete tok (jsonResult parse (acc ++ c.chunk))], false) := by
            simp [pumpStep, hlook]
          have hnt1 : ∀ kp ∈ removeA st c.req_id, kp.2.done_tx ≠ tok := by
            intro kp hkp he
            obtain ⟨hmem, hne⟩ := mem_removeA hkp
            exact hne (htok kp hmem he)
          obtain ⟨sil1, sil2, sil3⟩ := pump_run_silent parse tok ms _ hms hnt1
          rw [show msgEvents (Message.custom (IncomingCommandoMessage.done c) :: ms) =
            .inbound (.ok (.custom (.done c))) :: msgEvents ms from rfl,
            pumpRun_cons parse st _ _ _ _ hstep]
          have hbytes : bytesUpToDone c.req_id acc
              (Message.custom (IncomingCommandoMessage.done c) :: ms) =
              some (acc ++ c.chunk) := by simp [bytesUpToDone]
          refine ⟨sil2, ?_, ?_⟩
          · intro bs hbs
            rw [hbytes] at hbs
            obtain rfl : acc ++ c.chunk = bs := by
              simpa using hbs
            refine ⟨?_, ?_⟩
            · rw [completionsFor_append, sil1]
              simp [completionsFor]
            · refine sil3 c.req_id ?_
              rw [lookupA_removeA, if_pos rfl]
          · intro hbs
            rw [hbytes] at hbs
            cases hbs
        · cases hc : lookupA st c.req_id with
          | some p =>
            have hstep : pumpStep parse st (.inbound (.ok (.custom (.done c)))) =
                (removeA st c.req_id,
                 [.complete p.done_tx (jsonResult parse (p.buf ++ c.chunk))],
                 false) := by
              simp [pumpStep, hc]
            have hpne : p.done_tx ≠ tok := by
              intro he
              exact hreq (htok (c.req_id, p) (lookupA_mem hc) he)
            have hlook1 : lookupA (removeA st c.req_id) r = some ⟨tok, acc⟩ := by
              rw [lookupA_removeA, if_neg (fun h => hreq h.symm)]
              exact hlook
            have htok1 : ∀ kp ∈ removeA st c.req_id,
                kp.2.done_tx = tok → kp.1 = r :=
              fun kp hkp he => htok kp (mem_removeA hkp).1 he
            obtain ⟨ih1, ih2, ih3⟩ := ih _ acc hms hlook1 htok1
            rw [show msgEvents (Message.custom (IncomingCommandoMessage.done c) :: ms) =
              .inbound (.ok (.custom (.done c))) :: msgEvents ms from rfl,
              pumpRun_cons parse st _ _ _ _ hstep]
            have hskip : completionsFor tok
                [Effect.complete p.done_tx (jsonResult parse (p.buf ++ c.chunk))] =
                [] := by simp [completionsFor, hpne]
            refine ⟨ih1, ?_, ?_⟩
            · intro bs hbs
              rw [show bytesUpToDone r acc
                  (Message.custom (IncomingCommandoMessage.done c) :: ms) =
                bytesUpToDone r acc ms from by simp [bytesUpToDone, hreq]] at hbs
              obtain ⟨ha, hb⟩ := ih2 bs hbs
              refine ⟨?_, hb⟩
              rw [completionsFor_append, hskip, ha]
              rfl
            · intro hbs
              rw [show bytesUpToDone r acc
                  (Message.custom (IncomingCommandoMessage.done c) :: ms) =
                bytesUpToDone r acc ms from by simp [bytesUpToDone, hreq]] at hbs
              obtain ⟨ha, hb⟩ := ih3 hbs
              refine ⟨?_, ?_⟩
              · rw [completionsFor_append, hskip, ha]
                rfl
              · rw [hb, show chunkBytes r
                    (Message.custom (IncomingCommandoMessage.done c) :: ms) =
                  chunkBytes r ms from by simp [chunkBytes]]
          | none =>
            have hstep : pumpStep parse st (.inbound (.ok (.custom (.done c)))) =
                (st, [], false) := by
              simp [pumpStep, hc]
            obtain ⟨ih1, ih2, ih3⟩ := ih st acc hms hlook htok
            rw [show msgEvents (Message.custom (IncomingCommandoMessage.done c) :: ms) =
              .inbound (.ok (.custom (.done c))) :: msgEvents ms from rfl,
              pumpRun_cons parse st _ _ _ _ hstep]
            refine ⟨ih1, ?_, ?_⟩
            · intro bs hbs
              rw [show bytesUpToDone r acc
                  (Message.custom (IncomingCommandoMessage.done c) :: ms) =
                bytesUpToDone r acc ms from by simp [bytesUpToDone, hreq]] at hbs
              obtain ⟨ha, hb⟩ := ih2 bs hbs
              exact ⟨by simpa using ha, hb⟩
            · intro hbs
              rw [show bytesUpToDone r acc
                  (Message.custom (IncomingCommandoMessage.done c) :: ms) =
                bytesUpToDone r acc ms from by simp [bytesUpToDone, hreq]] at hbs
              obtain ⟨ha, hb⟩ := ih3 hbs
              refine ⟨by simpa using ha, ?_⟩
              rw [hb, show chunkBytes r
                  (Message.custom (IncomingCommandoMessage.done c) :: ms) =
                chunkBytes r ms from by simp [chunkBytes]]

/-- C2: a continuation chunk is appended only to the accumulator of its own
request ID, in arrival order — all other entries' lookups are untouched —
and a chunk for an ID absent from the pending map changes nothing and emits
nothing; consequently, over any interleaving of `Chunk`/`Done` messages
across request IDs, the completion of a pending request `r` (whose token no
other entry holds) carries exactly the JSON parse of the concatenation of
`r`'s own chunk bytes in order, and when no terminator for `r` arrives its
accumulator holds exactly its own chunk bytes. -/
theorem pump_chunk_demux (parse : List Nat → Option Value) :
    (∀ (st : Pending) (c : CommandoReplyChunk) (p : InProgress),
      lookupA st c.req_id = some p →
      pumpStep parse st (.inbound (.ok (.custom (.chunk c)))) =
        (modifyA (fun q => ⟨q.done_tx, q.buf ++ c.chunk⟩) st c.req_id, [], false)
      ∧ lookupA (modifyA (fun q => ⟨q.done_tx, q.buf ++ c.chunk⟩) st c.req_id)
          c.req_id = some ⟨p.done_tx, p.buf ++ c.chunk⟩
      ∧ ∀ r, r ≠ c.req_id →
          lookupA (modifyA (fun q => ⟨q.done_tx, q.buf ++ c.chunk⟩) st c.req_id) r
            = lookupA st r)
    ∧ (∀ (st : Pending) (c : CommandoReplyChunk),
      lookupA st c.req_id = none →
      pumpStep parse st (.inbound (.ok (.custom (.chunk c)))) = (st, [], false))
    ∧ (∀ (ms : List (Message IncomingCommandoMessage)) (st : Pending)
        (r tok : Nat) (acc : List Nat),
      (∀ m ∈ ms, isCommandoMsg m = true) →
      lookupA st r = some ⟨tok, acc⟩ →
      (∀ kp ∈ st, kp.2.done_tx = tok → kp.1 = r) →
      (pumpRun parse st (msgEvents ms)).2.2 = false
      ∧ (∀ bs, bytesUpToDone r acc ms = some bs →
          completionsFor tok (pumpRun parse st (msgEvents ms)).2.1 =
            [jsonResult parse bs]
          ∧ lookupA (pumpRun parse st (msgEvents ms)).1 r = none)
      ∧ (bytesUpToDone r acc ms = none →
          completionsFor tok (pumpRun parse st (msgEvents ms)).2.1 = []
          ∧ lookupA (pumpRun parse st (msgEvents ms)).1 r =
              some ⟨tok, acc ++ chunkBytes r ms⟩)) := by
  refine ⟨?_, ?_, ?_⟩
  · intro st c p hp
    refine ⟨by simp [pumpStep, hp], ?_, ?_⟩
    · rw [lookupA_modifyA, if_pos rfl, hp]
      rfl
    · intro r hr
      rw [lookupA_modifyA, if_neg hr]
  · intro st c h
    simp [pumpStep, h]
  · intro ms st r tok acc h1 h2 h3
    exact pump_run_demux parse r tok ms st acc h1 h2 h3

/-- C2, witness: two interleaved requests (IDs 2 and 3, tokens 10 and 11)
receive `A1 = [97]`, `B1 = [120]`, `A2 = [98]`, `B_done = [121]`,
`A_done = [99]`; request 2's completion carries the parse of exactly
`[97] ++ [98] ++ [99]` and its entry is gone. -/
theorem pump_chunk_demux_witness :
    completionsFor 10 (pumpRun (fun _ => none)
      [(2, ⟨10, []⟩), (3, ⟨11, []⟩)]
      (msgEvents
        [.custom (.chunk ⟨2, [97]⟩), .custom (.chunk ⟨3, [120]⟩),
         .custom (.chunk ⟨2, [98]⟩), .custom (.done ⟨3, [121]⟩),
         .custom (.done ⟨2, [99]⟩)])).2.1 =
      [jsonResult (fun _ => none) [97, 98, 99]]
    ∧ lookupA (pumpRun (fun _ => none)
      [(2, ⟨10, []⟩), (3, ⟨11, []⟩)]
      (msgEvents
        [.custom (.chunk ⟨2, [97]⟩), .custom (.chunk ⟨3, [120]⟩),
         .custom (.chunk ⟨2, [98]⟩), .custom (.done ⟨3, [121]⟩),
         .custom (.done ⟨2, [99]⟩)])).1 2 = none := by
  have h := (pump_chunk_demux (fun _ => none)).2.2
    [.custom (.chunk ⟨2, [97]⟩), .custom (.chunk ⟨3, [120]⟩),
     .custom (.chunk ⟨2, [98]⟩), .custom (.done ⟨3, [121]⟩),
     .custom (.done ⟨2, [99]⟩)]
    [(2, ⟨10, []⟩), (3, ⟨11, []⟩)] 2 10 []
    (by intro m hm; fin_cases hm <;> rfl)
    rfl
    (by intro kp hkp he
        simp only [List.mem_cons, List.not_mem_nil, or_false] at hkp
        rcases hkp with rfl | rfl <;> simp_all)
  exact h.2.1 [97, 98, 99] rfl

end Lnsocket
